import Mathlib

/-!
Shallow embedding of the `discreet-metrics` crate (files `src/lib.rs`,
`src/metrics/counter.rs`, `src/encoders/text.rs`) and proofs about it.

Modelling choices, each tied to the source:

* Descriptor addresses (`NonNull<MetricDesc>` pointers) are modelled as `Nat`;
  the nullable `AtomicPtr` fields (`MetricDesc::next`, `Registry::head`) are
  `Option Nat`, `none` standing for the null pointer.
* A `MetricDesc` bundles the five immutable fields of the Rust struct plus the
  mutable `next` link.  The `metric: &dyn Metric` trait object is represented
  by the observable behaviour of its `encode` method: the list of byte chunks
  it passes to the encoder's `write` (each chunk a `List Nat` of bytes).
* The whole mutable store (every descriptor's `next` field plus the registry
  head) is a `RegistryState`; `register` and the traversal of `encode` are
  state functions translated line by line from `Registry::register` and
  `Registry::encode`.  The claims under verification quantify over sequential
  (single-threaded) executions, so the CAS in `register` always succeeds on
  the first iteration of the loop and the loop body is executed exactly once.
* A `dyn Encoder` is represented by the trace of calls it receives: an
  `Event.writeDesc` carrying the four public metadata fields, and an
  `Event.write` carrying raw bytes.
* `AtomicUsize` arithmetic (`fetch_add` wraps) is `Nat` arithmetic modulo
  `2 ^ w`, with the word width `w` a parameter (the crate is `no_std` and the
  platform word width is not fixed by the source).
-/

set_option autoImplicit false

/-- The trace of calls a `dyn Encoder` receives during `Registry::encode`:
`write_desc` with a descriptor's public metadata, or `write` with raw bytes. -/
inductive Event where
  | writeDesc (name : String) (help : String) (unit : Option String) (labels : List String)
  | write (bytes : List Nat)
  deriving DecidableEq

/-- `true` exactly on `write_desc` calls. -/
def Event.isWriteDesc : Event → Bool
  | .writeDesc _ _ _ _ => true
  | .write _ => false

/-- The `MetricDesc` struct of `src/lib.rs`: public metadata fields `name`,
`help`, `unit`, `labels`, the `metric` trait object (represented by the byte
chunks its `encode` writes), and the private `next: AtomicPtr` link
(`none` = null). -/
structure MetricDesc where
  name : String
  help : String
  unit : Option String
  labels : List String
  metric : List (List Nat)
  next : Option Nat

/-- `MetricDesc::new`: stores the five arguments and initialises `next` to the
null pointer (`AtomicPtr::new(ptr::null_mut())`). -/
def MetricDesc.new (name : String) (help : String) (unit : Option String)
    (labels : List String) (metric : List (List Nat)) : MetricDesc :=
  { name := name, help := help, unit := unit, labels := labels,
    metric := metric, next := none }

/-- The mutable store: the registry's `head` pointer together with the
descriptor found at each address (descriptors live in caller storage; the
registry only points into it). -/
structure RegistryState where
  head : Option Nat
  descs : Nat → MetricDesc

/-- Outcome of `Registry::register`: normal return, or a panic of the
`assert!` (carrying the store as it is at the moment the panic fires, the
`swap` on the descriptor's `next` having already happened). -/
inductive RegResult where
  | ok (s : RegistryState)
  | panicked (s : RegistryState)

/-- `true` exactly on normal (non-panicking) returns. -/
def RegResult.isOk : RegResult → Bool
  | .ok _ => true
  | .panicked _ => false

/-- The store carried by either outcome. -/
def RegResult.state : RegResult → RegistryState
  | .ok s => s
  | .panicked s => s

/-- `Registry::register` (src/lib.rs lines 86–110), sequential semantics: load
the head, `swap` the descriptor's `next` to the observed head (this write
happens unconditionally, before the check), `assert!` that the observed head
is not the descriptor itself and that the previous `next` was null, then CAS
the head to the descriptor.  With no interleaved writer the CAS succeeds on
the first attempt, so the retry loop runs its body once. -/
def Registry.register (s : RegistryState) (p : Nat) : RegResult :=
  let headPtr := s.head
  let prev := (s.descs p).next
  let s1 : RegistryState :=
    { s with descs := Function.update s.descs p { s.descs p with next := headPtr } }
  if headPtr ≠ some p ∧ prev = none then
    RegResult.ok { s1 with head := some p }
  else
    RegResult.panicked s1

/-- A sequence of sequential `register` calls; stops at the first panic. -/
def registerList (s : RegistryState) : List Nat → RegResult
  | [] => RegResult.ok s
  | p :: ps =>
    match Registry.register s p with
    | RegResult.ok s' => registerList s' ps
    | RegResult.panicked s' => RegResult.panicked s'

/-- The events one loop iteration of `Registry::encode` emits for the
descriptor `d`: `enc.write_desc(desc)` followed by the `write` calls of
`desc.metric.encode(enc)`. -/
def descEvents (d : MetricDesc) : List Event :=
  Event.writeDesc d.name d.help d.unit d.labels :: d.metric.map Event.write

/-- The `while let` loop of `Registry::encode` (src/lib.rs lines 115–123),
with explicit fuel: starting from the pointer `q`, stop with the empty trace
on null, otherwise emit the node's events and follow its `next` link.
`none` means the fuel ran out before a null link was reached. -/
def encodeAux (s : RegistryState) : Nat → Option Nat → Option (List Event)
  | _, none => some []
  | 0, some _ => none
  | fuel + 1, some p =>
    match encodeAux s fuel (s.descs p).next with
    | some evs => some (descEvents (s.descs p) ++ evs)
    | none => none

/-- `Registry::encode`: run the traversal loop from the head.  The traversal
only loads; it never writes to the registry or to any descriptor, which the
embedding reflects by returning a trace without touching the state. -/
def Registry.encode (s : RegistryState) (fuel : Nat) : Option (List Event) :=
  encodeAux s fuel s.head

/-- `Registry::new` / a fresh registry over a store of descriptors: the head
is the null pointer. -/
def initState (env : Nat → MetricDesc) : RegistryState :=
  { head := none, descs := env }

/-- The null-terminated chain of `next` links: `Chain s q l` says that
starting at pointer `q` and following each descriptor's `next` field visits
exactly the addresses `l`, in order, and ends at the null pointer. -/
inductive Chain (s : RegistryState) : Option Nat → List Nat → Prop
  | nil : Chain s none []
  | cons {p : Nat} {q : Option Nat} {l : List Nat}
      (hnext : (s.descs p).next = q) (tail : Chain s q l) : Chain s (some p) (p :: l)

/-- Every address outside `l` still has a null `next` link (it has never been
registered). -/
def FreshOutside (s : RegistryState) (l : List Nat) : Prop :=
  ∀ q, q ∉ l → (s.descs q).next = none

/-- The `Counter` struct of `src/metrics/counter.rs`: a single `AtomicUsize`
total, modelled as a `Nat` kept below `2 ^ w` by the operations. -/
structure Counter where
  total : Nat

/-- `Counter::new`: total starts at `0`. -/
def Counter.new : Counter := ⟨0⟩

/-- `Counter::inc_by`: `fetch_add(count, Relaxed)`, which wraps on overflow —
the new total is the sum reduced modulo `2 ^ w` for word width `w`. -/
def Counter.incBy (w : Nat) (c : Counter) (n : Nat) : Counter :=
  ⟨(c.total + n) % 2 ^ w⟩

/-- `Counter::inc`: `fetch_add(1, Relaxed)`. -/
def Counter.inc (w : Nat) (c : Counter) : Counter :=
  ⟨(c.total + 1) % 2 ^ w⟩

/-- One call against a `Counter`: `inc()` or `inc_by(n)`. -/
inductive CounterOp where
  | inc : CounterOp
  | incBy : Nat → CounterOp
  deriving DecidableEq

/-- The amount an operation adds. -/
def CounterOp.amount : CounterOp → Nat
  | .inc => 1
  | .incBy n => n

/-- Apply one operation. -/
def Counter.apply (w : Nat) (c : Counter) : CounterOp → Counter
  | .inc => Counter.inc w c
  | .incBy n => Counter.incBy w c n

/-- Apply a sequence of operations in order.  Each `fetch_add` is atomic, so
an arbitrary concurrent interleaving of increments is exactly some sequential
order of the same multiset of operations. -/
def Counter.applyOps (w : Nat) (c : Counter) : List CounterOp → Counter
  | [] => c
  | op :: ops => Counter.applyOps w (Counter.apply w c op) ops

/-- The `TextEncoder` unit struct of `src/encoders/text.rs`. -/
structure TextEncoder where

/-- `<Counter as Metric<TextEncoder>>::encode` (src/encoders/text.rs lines
19–24): the body is a `// TODO` stub that returns the encoder unchanged and
performs no call at all. -/
def Counter.textEncode (_c : Counter) (enc : TextEncoder) : TextEncoder :=
  enc

/-- The `write` calls performed by `<Counter as Metric<TextEncoder>>::encode`:
the stub body makes none. -/
def Counter.textEncodeWrites (_c : Counter) : List (List Nat) :=
  []

/-- The byte representation the specification requires of a counter total:
its decimal ASCII digits, no leading zeros, no sign. -/
def decimalAscii (n : Nat) : List Nat :=
  (Nat.toDigits 10 n).map Char.toNat

/-- A concrete freshly-constructed descriptor (its `next` is null). -/
def dFresh : MetricDesc :=
  MetricDesc.new "some_metric" "Some metric" none ["some-label"] [[49]]

/-- A concrete store in which every address holds a fresh descriptor. -/
def envC : Nat → MetricDesc := fun _ => dFresh

/-- A concrete store whose registry head already points at descriptor `1`. -/
def sHeadOne : RegistryState :=
  { head := some 1, descs := envC }

/-- A concrete store holding the two-element chain `2 → 1 → null`. -/
def sChainW : RegistryState :=
  { head := some 2,
    descs := fun q => if q = 2 then { dFresh with next := some 1 } else dFresh }

/- ------------------------------------------------------------------ -/
/- Theorems.                                                           -/
/- ------------------------------------------------------------------ -/

/-- C10: `inc_by(n)` sets the total to `(t + n) mod 2 ^ w` and `inc()` to
`(t + 1) mod 2 ^ w` for the machine word width `w`; on overflow the total
wraps around to a small value (from `2 ^ w - 1`, `inc` yields `0`) rather
than panicking or saturating. -/
theorem counter_wrapping_mod (w : Nat) :
    (∀ (c : Counter) (n : Nat), (Counter.incBy w c n).total = (c.total + n) % 2 ^ w) ∧
    (∀ c : Counter, (Counter.inc w c).total = (c.total + 1) % 2 ^ w) ∧
    (∀ c : Counter, c.total = 2 ^ w - 1 → (Counter.inc w c).total = 0) := by
  refine ⟨fun c n => rfl, fun c => rfl, fun c hc => ?_⟩
  have h1 : 1 ≤ 2 ^ w := Nat.two_pow_pos w
  show (c.total + 1) % 2 ^ w = 0
  rw [hc, Nat.sub_add_cancel h1, Nat.mod_self]

/-- Witness for `counter_wrapping_mod`: on a 64-bit word, `inc` from the
all-ones total wraps to `0`. -/
theorem counter_wrapping_mod_witness :
    ((⟨2 ^ 64 - 1⟩ : Counter).total = 2 ^ 64 - 1) ∧
    (Counter.inc 64 ⟨2 ^ 64 - 1⟩).total = 0 :=
  ⟨rfl, (counter_wrapping_mod 64).2.2 ⟨2 ^ 64 - 1⟩ rfl⟩

/-- C7 (counterexample): the final total is not always the exact sum of the
increments — on a 64-bit word, `inc_by(2 ^ 64 - 1)` followed by `inc()`
leaves the total at `0`, while the sum of the increments is `2 ^ 64`. -/
theorem counter_exact_sum_counterexample :
    (Counter.applyOps 64 Counter.new
        [CounterOp.incBy (2 ^ 64 - 1), CounterOp.inc]).total ≠
      (List.map CounterOp.amount [CounterOp.incBy (2 ^ 64 - 1), CounterOp.inc]).sum := by
  decide

/-- Any single operation adds its amount modulo `2 ^ w`. -/
theorem counterApply_total (w : Nat) (c : Counter) (op : CounterOp) :
    (Counter.apply w c op).total = (c.total + op.amount) % 2 ^ w := by
  cases op <;> rfl

/-- Running a sequence of operations from a sub-`2 ^ w` total yields the sum
of the start total and all amounts, reduced modulo `2 ^ w`. -/
theorem counterApplyOps_total (w : Nat) (ops : List CounterOp) :
    ∀ c : Counter, c.total < 2 ^ w →
      (Counter.applyOps w c ops).total =
        (c.total + (ops.map CounterOp.amount).sum) % 2 ^ w := by
  induction ops with
  | nil =>
    intro c hc
    simp [Counter.applyOps, Nat.mod_eq_of_lt hc]
  | cons op ops ih =>
    intro c hc
    have hpos : 0 < 2 ^ w := Nat.two_pow_pos w
    have hlt : (Counter.apply w c op).total < 2 ^ w := by
      rw [counterApply_total]
      exact Nat.mod_lt _ hpos
    simp only [Counter.applyOps]
    rw [ih _ hlt, counterApply_total, Nat.mod_add_mod, List.map_cons, List.sum_cons,
      Nat.add_assoc]

/-- C7 (amended): from a fresh counter, every sequence of `inc`/`inc_by`
operations — hence every interleaving of atomic `fetch_add`s — leaves the
total at the sum of all increments reduced modulo `2 ^ w`; whenever that sum
is below `2 ^ w` (as in the spec's `T = 8`, `M = 100000` scenario on a 64-bit
word) the total is exactly the sum and no increment is lost. -/
theorem counter_total_sum_mod (w : Nat) (ops : List CounterOp) :
    (Counter.applyOps w Counter.new ops).total =
      (ops.map CounterOp.amount).sum % 2 ^ w ∧
    ((ops.map CounterOp.amount).sum < 2 ^ w →
      (Counter.applyOps w Counter.new ops).total = (ops.map CounterOp.amount).sum) := by
  have h := counterApplyOps_total w ops Counter.new (Nat.two_pow_pos w)
  have h0 : Counter.new.total = 0 := rfl
  rw [h0, Nat.zero_add] at h
  exact ⟨h, fun hlt => by rw [h, Nat.mod_eq_of_lt hlt]⟩

/-- `n` `inc()` operations carry a total increment amount of `n`. -/
theorem sum_amount_replicate_inc (n : Nat) :
    (List.map CounterOp.amount (List.replicate n CounterOp.inc)).sum = n := by
  induction n with
  | zero => rfl
  | succ k ih => simp [List.replicate_succ, ih, CounterOp.amount, Nat.add_comm]

/-- Witness for `counter_total_sum_mod`: 800000 `inc()` calls on a 64-bit
word leave the total at exactly 800000. -/
theorem counter_total_sum_mod_witness :
    (List.map CounterOp.amount (List.replicate 800000 CounterOp.inc)).sum < 2 ^ 64 ∧
    (Counter.applyOps 64 Counter.new (List.replicate 800000 CounterOp.inc)).total =
      800000 := by
  have hs : (List.map CounterOp.amount (List.replicate 800000 CounterOp.inc)).sum
      = 800000 := sum_amount_replicate_inc 800000
  refine ⟨by rw [hs]; norm_num, ?_⟩
  rw [(counter_total_sum_mod 64 (List.replicate 800000 CounterOp.inc)).2
    (by rw [hs]; norm_num), hs]

/-- C5: the `Metric<TextEncoder>` implementation for `Counter` is a TODO stub:
encoding a counter whose total is `1` performs zero `write` calls, instead of
the single `write` of the decimal ASCII bytes `"1"` (`[49]`) the
specification requires. -/
theorem counter_text_encode_stub_writes_nothing :
    Counter.textEncodeWrites (Counter.inc 64 Counter.new) = [] ∧
    decimalAscii (Counter.inc 64 Counter.new).total = [49] ∧
    Counter.textEncodeWrites (Counter.inc 64 Counter.new) ≠
      [decimalAscii (Counter.inc 64 Counter.new).total] := by
  refine ⟨rfl, by decide, by decide⟩

/-- C9: whenever `register` panics on its duplicate check, the registry head
is unchanged, but the descriptor's `next` link has already been overwritten
(by the `swap` preceding the `assert!`) with the head value observed at the
start of the call, and is not restored. -/
theorem register_panic_head_unchanged_next_clobbered (s : RegistryState) (p : Nat)
    (h : ¬(s.head ≠ some p ∧ (s.descs p).next = none)) :
    ∃ s', Registry.register s p = RegResult.panicked s' ∧
      s'.head = s.head ∧ (s'.descs p).next = s.head := by
  refine ⟨{ s with
      descs := Function.update s.descs p { s.descs p with next := s.head } }, ?_, rfl, ?_⟩
  · simp only [Registry.register]
    rw [if_neg h]
  · simp [Function.update_same]

/-- Witness for `register_panic_head_unchanged_next_clobbered`: re-registering
the descriptor the head currently points at panics with the head intact and
the descriptor's `next` set to that head value (a self-link). -/
theorem register_panic_head_unchanged_next_clobbered_witness :
    ∃ s', Registry.register sHeadOne 1 = RegResult.panicked s' ∧
      s'.head = sHeadOne.head ∧ (s'.descs 1).next = sHeadOne.head :=
  register_panic_head_unchanged_next_clobbered sHeadOne 1 (by decide)

/-- C1 (bug demonstration): register descriptor `1` into the empty registry,
then descriptor `2`, then descriptor `1` again — although `1` is in the list,
the third call does not panic: it returns normally, and the resulting links
(`head = 1`, `1.next = 2`, `2.next = 1`) form a cycle in which descriptor `1`
recurs, so a subsequent `encode` never reaches a null link (it exhausts any
amount of fuel). -/
theorem reregister_tail_silently_corrupts :
    (registerList (initState envC) [1, 2, 1]).isOk = true ∧
    (registerList (initState envC) [1, 2, 1]).state.head = some 1 ∧
    ((registerList (initState envC) [1, 2, 1]).state.descs 1).next = some 2 ∧
    ((registerList (initState envC) [1, 2, 1]).state.descs 2).next = some 1 ∧
    Registry.encode (registerList (initState envC) [1, 2, 1]).state 10 = none := by
  decide

/-- A chain's entry pointer is null or points at the chain's first element. -/
theorem Chain.head_mem {s : RegistryState} {q : Option Nat} {l : List Nat}
    (h : Chain s q l) : q = none ∨ ∃ x, x ∈ l ∧ q = some x := by
  cases h with
  | nil => exact Or.inl rfl
  | cons hnext tail => exact Or.inr ⟨_, List.mem_cons_self _ _, rfl⟩

/-- A chain only reads the `next` fields of its members, so it survives any
store change that leaves those fields alone. -/
theorem Chain.congr_next {s s' : RegistryState} {q : Option Nat} {l : List Nat}
    (h : Chain s q l) (hd : ∀ x ∈ l, (s'.descs x).next = (s.descs x).next) :
    Chain s' q l := by
  induction h with
  | nil => exact Chain.nil
  | cons hnext tail ih =>
    refine Chain.cons ?_ (ih fun x hx => hd x (List.mem_cons_of_mem _ hx))
    rw [hd _ (List.mem_cons_self _ _), hnext]

/-- Registering a descriptor that is not in the current chain (its `next` is
still null) passes the `assert!` and pushes it at the head. -/
theorem register_fresh {s : RegistryState} {l : List Nat} {p : Nat}
    (hc : Chain s s.head l) (hf : FreshOutside s l) (hp : p ∉ l) :
    Registry.register s p =
      RegResult.ok
        { head := some p,
          descs := Function.update s.descs p { s.descs p with next := s.head } } := by
  have hprev : (s.descs p).next = none := hf p hp
  have hhead : s.head ≠ some p := by
    rcases Chain.head_mem hc with h | ⟨x, hx, hxx⟩
    · rw [h]; simp
    · rw [hxx]
      intro hEq
      obtain rfl : x = p := Option.some.inj hEq
      exact hp hx
  simp only [Registry.register]
  rw [if_pos ⟨hhead, hprev⟩]

/-- One successful fresh registration extends the chain by its descriptor,
keeps every other `next` field null, and changes no metadata field. -/
theorem register_fresh_chain {s : RegistryState} {l : List Nat} {p : Nat}
    (hc : Chain s s.head l) (hf : FreshOutside s l) (hp : p ∉ l) :
    ∃ s', Registry.register s p = RegResult.ok s' ∧
      s'.head = some p ∧
      Chain s' s'.head (p :: l) ∧
      FreshOutside s' (p :: l) ∧
      (∀ q, (s'.descs q).name = (s.descs q).name ∧
            (s'.descs q).help = (s.descs q).help ∧
            (s'.descs q).unit = (s.descs q).unit ∧
            (s'.descs q).labels = (s.descs q).labels ∧
            (s'.descs q).metric = (s.descs q).metric) := by
  refine ⟨_, register_fresh hc hf hp, rfl, ?_, ?_, ?_⟩
  · refine Chain.cons (by simp [Function.update_same]) (Chain.congr_next hc ?_)
    intro x hx
    have hxp : x ≠ p := fun hEq => hp (hEq ▸ hx)
    simp [Function.update_noteq hxp]
  · intro q hq
    simp only [List.mem_cons, not_or] at hq
    simpa [Function.update_noteq hq.1] using hf q hq.2
  · intro q
    by_cases hqp : q = p
    · subst hqp
      simp [Function.update_same]
    · simp [Function.update_noteq hqp]

/-- Sequentially registering pairwise-distinct fresh descriptors always
succeeds; the final chain is the reverse of the registration order prepended
to the previous chain, freshness outside it is kept, and no metadata field of
any descriptor changes. -/
theorem registerList_fresh_chain (ps : List Nat) :
    ∀ (s : RegistryState) (l : List Nat),
      Chain s s.head l → FreshOutside s l → (∀ x ∈ ps, x ∉ l) → ps.Nodup →
      ∃ s', registerList s ps = RegResult.ok s' ∧
        Chain s' s'.head (ps.reverse ++ l) ∧
        FreshOutside s' (ps.reverse ++ l) ∧
        (∀ q, (s'.descs q).name = (s.descs q).name ∧
              (s'.descs q).help = (s.descs q).help ∧
              (s'.descs q).unit = (s.descs q).unit ∧
              (s'.descs q).labels = (s.descs q).labels ∧
              (s'.descs q).metric = (s.descs q).metric) := by
  induction ps with
  | nil =>
    intro s l hc hf _ _
    exact ⟨s, rfl, by simpa using hc, by simpa using hf,
      fun q => ⟨rfl, rfl, rfl, rfl, rfl⟩⟩
  | cons p ps ih =>
    intro s l hc hf hdisj hnd
    obtain ⟨s1, hreg, hhead, hc1, hf1, hmeta1⟩ :=
      register_fresh_chain hc hf (hdisj p (List.mem_cons_self _ _))
    have hpnotin : p ∉ ps := (List.nodup_cons.mp hnd).1
    have hnd' : ps.Nodup := (List.nodup_cons.mp hnd).2
    have hdisj' : ∀ x ∈ ps, x ∉ p :: l := by
      intro x hx
      rw [List.mem_cons, not_or]
      exact ⟨fun hEq => hpnotin (hEq ▸ hx), hdisj x (List.mem_cons_of_mem _ hx)⟩
    obtain ⟨s', hrl, hc', hf', hmeta'⟩ := ih s1 (p :: l) hc1 hf1 hdisj' hnd'
    have hshape : ps.reverse ++ (p :: l) = (p :: ps).reverse ++ l := by
      simp
    refine ⟨s', ?_, ?_, ?_, ?_⟩
    · simp only [registerList, hreg]
      exact hrl
    · rwa [hshape] at hc'
    · rwa [hshape] at hf'
    · intro q
      obtain ⟨a1, a2, a3, a4, a5⟩ := hmeta' q
      obtain ⟨b1, b2, b3, b4, b5⟩ := hmeta1 q
      exact ⟨a1.trans b1, a2.trans b2, a3.trans b3, a4.trans b4, a5.trans b5⟩

/-- The `encode` traversal over a null-terminated chain returns the
concatenated per-descriptor events, one block per chain member, provided the
fuel covers the chain length. -/
theorem encodeAux_chain {s : RegistryState} {q : Option Nat} {l : List Nat}
    (h : Chain s q l) :
    ∀ fuel, l.length ≤ fuel →
      encodeAux s fuel q = some (l.flatMap fun p => descEvents (s.descs p)) := by
  induction h with
  | nil =>
    intro fuel _
    cases fuel <;> rfl
  | cons hnext tail ih =>
    intro fuel hfuel
    cases fuel with
    | zero => exact absurd hfuel (by simp)
    | succ f =>
      have hrec := ih f (Nat.le_of_succ_le_succ (by simpa using hfuel))
      simp only [encodeAux, hnext, hrec, List.flatMap_cons]

/-- Master lemma: from an all-fresh store, registering pairwise-distinct
descriptors succeeds, leaves the chain equal to the reverse of the
registration order, and a subsequent `encode` (with fuel the number of
registered descriptors) returns, per descriptor in chain order, its
`write_desc` event — carrying the metadata exactly as constructed — followed
by its metric's `write` events. -/
theorem encode_after_registerList (env : Nat → MetricDesc)
    (hfresh : ∀ q, (env q).next = none) (ps : List Nat) (hnd : ps.Nodup) :
    ∃ s', registerList (initState env) ps = RegResult.ok s' ∧
      Chain s' s'.head ps.reverse ∧
      Registry.encode s' ps.length =
        some (ps.reverse.flatMap fun p =>
          Event.writeDesc (env p).name (env p).help (env p).unit (env p).labels ::
            (env p).metric.map Event.write) := by
  have hc0 : Chain (initState env) (initState env).head [] := Chain.nil
  have hf0 : FreshOutside (initState env) [] := fun q _ => hfresh q
  obtain ⟨s', hrl, hc, _, hmeta⟩ :=
    registerList_fresh_chain ps (initState env) [] hc0 hf0 (by simp) hnd
  rw [List.append_nil] at hc
  have henc := encodeAux_chain hc ps.length (by rw [List.length_reverse])
  have hfun : (fun p => descEvents (s'.descs p)) =
      (fun p => Event.writeDesc (env p).name (env p).help (env p).unit (env p).labels ::
        (env p).metric.map Event.write) := by
    funext p
    obtain ⟨h1, h2, h3, h4, h5⟩ := hmeta p
    simp only [initState] at h1 h2 h3 h4 h5
    simp [descEvents, h1, h2, h3, h4, h5]
  refine ⟨s', hrl, hc, ?_⟩
  rw [Registry.encode, henc, hfun]

/-- `write` events are never `write_desc` events. -/
theorem filter_isWriteDesc_writes (ms : List (List Nat)) :
    (ms.map Event.write).filter Event.isWriteDesc = [] := by
  induction ms with
  | nil => rfl
  | cons m ms ih => simp [Event.isWriteDesc, ih]

/-- Filtering the per-descriptor event blocks down to `write_desc` calls
keeps exactly one event per descriptor, in order. -/
theorem filter_isWriteDesc_flatMap (l : List Nat) (f : Nat → MetricDesc) :
    ((l.flatMap fun p =>
        Event.writeDesc (f p).name (f p).help (f p).unit (f p).labels ::
          (f p).metric.map Event.write).filter Event.isWriteDesc) =
      l.map fun p => Event.writeDesc (f p).name (f p).help (f p).unit (f p).labels := by
  induction l with
  | nil => rfl
  | cons p t ih =>
    simp [List.flatMap_cons, List.filter_append, Event.isWriteDesc,
      filter_isWriteDesc_writes, ih]

/-- C2: after registering `N` pairwise-distinct fresh descriptors, `encode`
invokes `write_desc` exactly `N` times — once per registered descriptor, in
the order of the chain, and for no other descriptor — and on a
freshly-constructed (empty) registry it emits no event at all, whatever the
fuel (the traversal makes no write, so nothing changes). -/
theorem encode_visits_each_registered_once (env : Nat → MetricDesc)
    (hfresh : ∀ q, (env q).next = none) (ps : List Nat) (hnd : ps.Nodup) :
    (∃ s' evs, registerList (initState env) ps = RegResult.ok s' ∧
      Registry.encode s' ps.length = some evs ∧
      (evs.filter Event.isWriteDesc).length = ps.length ∧
      evs.filter Event.isWriteDesc = ps.reverse.map fun p =>
        Event.writeDesc (env p).name (env p).help (env p).unit (env p).labels) ∧
    ∀ fuel, Registry.encode (initState env) fuel = some [] := by
  obtain ⟨s', hrl, _, henc⟩ := encode_after_registerList env hfresh ps hnd
  refine ⟨⟨s', _, hrl, henc, ?_, filter_isWriteDesc_flatMap ps.reverse env⟩, ?_⟩
  · rw [filter_isWriteDesc_flatMap, List.length_map, List.length_reverse]
  · intro fuel
    cases fuel <;> rfl

/-- Witness for `encode_visits_each_registered_once`: three concrete
registrations, then `encode`. -/
theorem encode_visits_each_registered_once_witness :
    (∃ s' evs, registerList (initState envC) [1, 2, 3] = RegResult.ok s' ∧
      Registry.encode s' 3 = some evs ∧
      (evs.filter Event.isWriteDesc).length = 3 ∧
      evs.filter Event.isWriteDesc = [1, 2, 3].reverse.map fun p =>
        Event.writeDesc (envC p).name (envC p).help (envC p).unit (envC p).labels) ∧
    Registry.encode (initState envC) 0 = some [] := by
  have h := encode_visits_each_registered_once envC (fun _ => rfl) [1, 2, 3] (by decide)
  exact ⟨h.1, h.2 0⟩

/-- C3: after every sequence of successful `register` calls on distinct fresh
descriptors the chain of `next` links from the head is null-terminated (hence
acyclic) and contains each registered descriptor exactly once; and each
single fresh `register` call preserves that predicate. -/
theorem register_preserves_acyclic_nodup_chain :
    (∀ (env : Nat → MetricDesc), (∀ q, (env q).next = none) →
      ∀ ps : List Nat, ps.Nodup →
        ∃ s', registerList (initState env) ps = RegResult.ok s' ∧
          Chain s' s'.head ps.reverse ∧ ps.reverse.Nodup) ∧
    (∀ (s : RegistryState) (l : List Nat) (p : Nat),
      Chain s s.head l → FreshOutside s l → l.Nodup → p ∉ l →
        ∃ s', Registry.register s p = RegResult.ok s' ∧
          Chain s' s'.head (p :: l) ∧ (p :: l).Nodup ∧ FreshOutside s' (p :: l)) := by
  constructor
  · intro env hfresh ps hnd
    obtain ⟨s', hrl, hc, _⟩ := encode_after_registerList env hfresh ps hnd
    exact ⟨s', hrl, hc, List.nodup_reverse.mpr hnd⟩
  · intro s l p hc hf hnd hp
    obtain ⟨s1, hreg, _, hc1, hf1, _⟩ := register_fresh_chain hc hf hp
    exact ⟨s1, hreg, hc1, List.nodup_cons.mpr ⟨hp, hnd⟩, hf1⟩

/-- Witness for `register_preserves_acyclic_nodup_chain`: two concrete
registrations yield the two-element chain `[2, 1]` with no duplicate. -/
theorem register_preserves_acyclic_nodup_chain_witness :
    ∃ s', registerList (initState envC) [1, 2] = RegResult.ok s' ∧
      Chain s' s'.head [1, 2].reverse ∧ [1, 2].reverse.Nodup :=
  register_preserves_acyclic_nodup_chain.1 envC (fun _ => rfl) [1, 2] (by decide)

/-- C4: after registering distinct fresh descriptors single-threadedly,
`encode` visits them in exactly the reverse of registration order — the event
trace is the concatenation, over the reversed registration list, of each
descriptor's `write_desc` followed by its payload. -/
theorem encode_order_reverse_registration (env : Nat → MetricDesc)
    (hfresh : ∀ q, (env q).next = none) (ps : List Nat) (hnd : ps.Nodup) :
    ∃ s', registerList (initState env) ps = RegResult.ok s' ∧
      Registry.encode s' ps.length =
        some (ps.reverse.flatMap fun p =>
          Event.writeDesc (env p).name (env p).help (env p).unit (env p).labels ::
            (env p).metric.map Event.write) := by
  obtain ⟨s', hrl, _, henc⟩ := encode_after_registerList env hfresh ps hnd
  exact ⟨s', hrl, henc⟩

/-- Witness for `encode_order_reverse_registration`: two concrete
registrations, descriptor `2` (registered last) is visited first. -/
theorem encode_order_reverse_registration_witness :
    ∃ s', registerList (initState envC) [1, 2] = RegResult.ok s' ∧
      Registry.encode s' 2 =
        some ([1, 2].reverse.flatMap fun p =>
          Event.writeDesc (envC p).name (envC p).help (envC p).unit (envC p).labels ::
            (envC p).metric.map Event.write) :=
  encode_order_reverse_registration envC (fun _ => rfl) [1, 2] (by decide)

/-- C6: every registered descriptor's constructed metadata (name, help,
optional unit, ordered labels) reaches `write_desc` unchanged; the trace
contains exactly one `write_desc` per registered metric, and each metric's
`write_desc` comes immediately before (hence before) the `write` calls
carrying that metric's payload. -/
theorem write_desc_metadata_passthrough (env : Nat → MetricDesc)
    (hfresh : ∀ q, (env q).next = none) (ps : List Nat) (hnd : ps.Nodup)
    (p : Nat) (hp : p ∈ ps) :
    ∃ s' evs, registerList (initState env) ps = RegResult.ok s' ∧
      Registry.encode s' ps.length = some evs ∧
      (evs.filter Event.isWriteDesc).length = ps.length ∧
      ∃ pre post, evs = pre ++
        Event.writeDesc (env p).name (env p).help (env p).unit (env p).labels ::
          ((env p).metric.map Event.write ++ post) := by
  obtain ⟨s', hrl, _, henc⟩ := encode_after_registerList env hfresh ps hnd
  refine ⟨s', _, hrl, henc, ?_, ?_⟩
  · rw [filter_isWriteDesc_flatMap, List.length_map, List.length_reverse]
  · have hp' : p ∈ ps.reverse := List.mem_reverse.mpr hp
    obtain ⟨a, b, hab⟩ := List.append_of_mem hp'
    refine ⟨a.flatMap fun x =>
        Event.writeDesc (env x).name (env x).help (env x).unit (env x).labels ::
          (env x).metric.map Event.write,
      b.flatMap fun x =>
        Event.writeDesc (env x).name (env x).help (env x).unit (env x).labels ::
          (env x).metric.map Event.write, ?_⟩
    rw [hab, List.flatMap_append, List.flatMap_cons, List.cons_append]

/-- Witness for `write_desc_metadata_passthrough`: with two concrete
registrations, descriptor `1`'s metadata block occurs in the trace. -/
theorem write_desc_metadata_passthrough_witness :
    ∃ s' evs, registerList (initState envC) [1, 2] = RegResult.ok s' ∧
      Registry.encode s' 2 = some evs ∧
      (evs.filter Event.isWriteDesc).length = 2 ∧
      ∃ pre post, evs = pre ++
        Event.writeDesc (envC 1).name (envC 1).help (envC 1).unit (envC 1).labels ::
          ((envC 1).metric.map Event.write ++ post) :=
  write_desc_metadata_passthrough envC (fun _ => rfl) [1, 2] (by decide) 1 (by decide)

/-- C8: on every store whose chain of `next` links from the head is finite
and null-terminated, `encode` terminates as soon as it loads a null link:
with any fuel covering the chain length it returns the trace that visits each
chain node exactly once, in order. -/
theorem encode_terminates_on_null_terminated_chain (s : RegistryState)
    (l : List Nat) (hc : Chain s s.head l) (fuel : Nat) (hfuel : l.length ≤ fuel) :
    Registry.encode s fuel = some (l.flatMap fun p => descEvents (s.descs p)) :=
  encodeAux_chain hc fuel hfuel

/-- Witness for `encode_terminates_on_null_terminated_chain`: the concrete
two-element chain `2 → 1 → null` is traversed with fuel `2`. -/
theorem encode_terminates_on_null_terminated_chain_witness :
    Registry.encode sChainW 2 =
      some ([2, 1].flatMap fun p => descEvents (sChainW.descs p)) :=
  encode_terminates_on_null_terminated_chain sChainW [2, 1]
    (Chain.cons rfl (Chain.cons rfl Chain.nil)) 2 (by decide)
